import Mathlib

/-
Verification development for the medline scraper (src/medline).

The definitions below are a shallow embedding of the Python code in
src/medline/src/scrapper.  Python dicts are modelled as association lists
(`List (String × V)`); a field value that may be Python `None` is modelled
as `Option String` (so a dict entry of type `Option (Option String)` after
lookup distinguishes "absent" / "present but null" / "present with value").
Fallible operations are modelled with `Except` / `Option`; the async
machinery is modelled with explicit step relations and trace interleavings.
-/

namespace Medline

/-! ## Python dict model

`dget k d` is Python `d.get(k)` on an association list (first binding wins,
matching dict-key uniqueness).  `dictMerge a b` is the Python expression
`{**a, **b}` used in `scrape_entry` (async_scrapper.py line 338,
`{**tile, **full_data}`): keys of `a` in order, updated with `b`'s values,
followed by the keys of `b` that are absent from `a`. -/

def dget {V : Type} (k : String) : List (String × V) → Option V
  | [] => none
  | p :: rest => if p.1 = k then some p.2 else dget k rest

def dictMerge {V : Type} (a b : List (String × V)) : List (String × V) :=
  a.map (fun p => (p.1, (dget p.1 b).getD p.2)) ++
    b.filter (fun p => (dget p.1 a).isNone)

theorem dget_append {V : Type} (k : String) (xs ys : List (String × V)) :
    dget k (xs ++ ys) =
      match dget k xs with
      | some v => some v
      | none => dget k ys := by
  induction xs with
  | nil => simp [dget]
  | cons p rest ih =>
    by_cases h : p.1 = k
    · simp [dget, h]
    · simp [dget, h, ih]

theorem dget_map_rekey {V : Type} (k : String) (a : List (String × V))
    (g : String → V → V) :
    dget k (a.map (fun p => (p.1, g p.1 p.2))) = (dget k a).map (g k) := by
  induction a with
  | nil => simp [dget]
  | cons p rest ih =>
    by_cases h : p.1 = k
    · subst h
      simp [dget, ih]
    · simp [dget, h, ih]

theorem dget_filter {V : Type} (k : String) (b : List (String × V))
    (pred : String × V → Bool)
    (h : ∀ p ∈ b, p.1 = k → pred p = true) :
    dget k (b.filter pred) = dget k b := by
  induction b with
  | nil => simp
  | cons p rest ih =>
    by_cases hk : p.1 = k
    · have := h p (by simp) hk
      simp [List.filter, this, dget, hk]
    · cases hp : pred p
      · simp only [List.filter, hp, dget, hk, if_neg]
        exact ih (fun q hq => h q (by simp [hq]))
      · simp only [List.filter, hp, dget, hk, if_neg]
        exact ih (fun q hq => h q (by simp [hq]))

/-- Core lookup law of the Python merge `{**a, **b}`: for every key, `b`'s
binding wins whenever the key is present in `b` (even when its value is
null); otherwise `a`'s binding is used. -/
theorem dictMerge_dget {V : Type} (a b : List (String × V)) (k : String) :
    dget k (dictMerge a b) =
      match dget k b with
      | some v => some v
      | none => dget k a := by
  unfold dictMerge
  rw [dget_append]
  rw [dget_map_rekey k a (fun k2 v => (dget k2 b).getD v)]
  cases ha : dget k a with
  | some v =>
    cases hb : dget k b with
    | some w => simp [hb]
    | none => simp [hb]
  | none =>
    have hfil : dget k (b.filter (fun p => (dget p.1 a).isNone)) = dget k b := by
      apply dget_filter
      intro p _ hpk
      rw [hpk, ha]
      rfl
    cases hb : dget k b with
    | some w => simp [hfil, hb]
    | none => simp [hfil, hb, ha]

/-- Modelled from the spec's merge-policy words, for refinement comparison
with `dictMerge`: "for each field present in detail and non-null, detail's
value wins; otherwise the tile's value (if any) is retained; fields absent
from both remain null." -/
def spec_merge_field (tile detail : List (String × Option String))
    (k : String) : Option (Option String) :=
  match dget k detail with
  | some (some v) => some (some v)
  | _ => dget k tile

/-- Tile of the spec's second merge example: title "A", price "$5". -/
def tile_c1 : List (String × Option String) :=
  [("title", some "A"), ("price", some "$5")]

/-- Detail of the spec's second merge example: price present but null. -/
def detail_c1 : List (String × Option String) :=
  [("price", none)]

/-- Tile of the spec's first merge example: title "A", price null. -/
def tile_ex1 : List (String × Option String) :=
  [("title", some "A"), ("price", none)]

/-- Detail of the spec's first merge example. -/
def detail_ex1 : List (String × Option String) :=
  [("price", some "$10"), ("description", some "d")]

/-- C1 counterexample: merging tile (title "A", price "$5") with detail
(price null) in the code's merge `{**tile, **full_data}` (async_scrapper.py
line 338) yields price = null, not price = "$5" as the claimed precedence
law (detail's value wins only when non-null) requires. -/
theorem c1_counterexample :
    dget "price" (dictMerge tile_c1 detail_c1) = some none ∧
    spec_merge_field tile_c1 detail_c1 "price" = some (some "$5") ∧
    dget "price" (dictMerge tile_c1 detail_c1) ≠
      spec_merge_field tile_c1 detail_c1 "price" := by
  refine ⟨by decide, by decide, by decide⟩

/-- C1 amended: in the merged record, for each field present in detail the
detail's value wins even when that value is null; fields absent from detail
retain the tile's value; fields absent from both stay absent.  The spec's
first example (tile price null, detail price "$10") still holds. -/
theorem c1_merge_precedence :
    (∀ (V : Type) (a b : List (String × V)) (k : String),
      dget k (dictMerge a b) =
        match dget k b with
        | some v => some v
        | none => dget k a) ∧
    dictMerge tile_ex1 detail_ex1 =
      [("title", some "A"), ("price", some "$10"),
        ("description", some "d")] := by
  refine ⟨fun V a b k => dictMerge_dget a b k, by decide⟩

/-! ## RetryScheduler model

`retry_with_backoff` (utils.py lines 27-35):

  for i in range(retries):
      try: return await coro()
      except Exception: await asyncio.sleep(delay * 2**i)
  raise RuntimeError("All retries failed")

The operation is modelled as `op : Nat → Except E A` (result of the i-th
attempt).  The embedding returns the final outcome (the raised RuntimeError
is the fixed message string, which carries no underlying error), the number
of attempts executed, and the list of sleep durations performed (in the
source's unit; the source default `delay=2` seconds corresponds to the
spec's baseDelayMs=2000). -/

def retry_run {E A : Type} (op : Nat → Except E A) (delay : Nat) :
    Nat → Nat → Except String A × (Nat × List Nat)
  | 0, _ => (Except.error "All retries failed", (0, []))
  | n + 1, i =>
    match op i with
    | Except.ok a => (Except.ok a, (1, []))
    | Except.error _ =>
      let r := retry_run op delay n (i + 1)
      (r.1, (r.2.1 + 1, delay * 2 ^ i :: r.2.2))

def retry_with_backoff {E A : Type} (op : Nat → Except E A)
    (retries delay : Nat) : Except String A × (Nat × List Nat) :=
  retry_run op delay retries 0

def failing_op_a : Nat → Except String Nat := fun _ => Except.error "network down"

def failing_op_b : Nat → Except String Nat := fun _ => Except.error "dns failure"

/-- C2 counterexample: against an always-failing operation with
maxAttempts=3 and base delay 2000, the code performs THREE sleeps
(2000, 4000, and a final wasted 8000 after the last attempt), and raises
the constant RuntimeError "All retries failed": two operations failing with
different underlying errors produce identical final results, so the last
underlying error is discarded, not wrapped. -/
theorem c2_counterexample :
    retry_with_backoff failing_op_a 3 2000 =
      (Except.error "All retries failed", (3, [2000, 4000, 8000])) ∧
    retry_with_backoff failing_op_b 3 2000 =
      retry_with_backoff failing_op_a 3 2000 := by
  exact ⟨rfl, rfl⟩

theorem retry_run_always_fails {E A : Type} (op : Nat → Except E A)
    (delay : Nat) (hfail : ∀ j, ∃ e, op j = Except.error e) :
    ∀ n i, retry_run op delay n i =
      (Except.error "All retries failed",
        (n, (List.range n).map (fun j => delay * 2 ^ (i + j)))) := by
  intro n
  induction n with
  | zero => intro i; rfl
  | succ m ih =>
    intro i
    obtain ⟨e, he⟩ := hfail i
    rw [retry_run, he]
    simp only [ih (i + 1), List.range_succ_eq_map, List.map_cons,
      List.map_map]
    refine congrArg _ (congrArg _ ?_)
    refine congr (congrArg List.cons ?_) ?_
    · simp
    · refine congrArg (fun f => List.map f (List.range m)) ?_
      funext j
      simp only [Function.comp]
      exact congrArg (fun n => delay * 2 ^ n) (by omega)

/-- C2 amended: for every operation that fails on every attempt, the retry
wrapper executes the operation exactly `retries` times, sleeps
`delay * 2 ^ attempt` after EVERY failed attempt (including a final sleep of
`delay * 2 ^ (retries-1)` after the last one, so with retries=3 the sleeps
are 2000, 4000, 8000 for base 2000), and then fails with the generic
RuntimeError "All retries failed", which does not wrap the underlying
error. -/
theorem c2_retry_exhaustion {E A : Type} (op : Nat → Except E A)
    (retries delay : Nat) (hfail : ∀ j, ∃ e, op j = Except.error e) :
    retry_with_backoff op retries delay =
      (Except.error "All retries failed",
        (retries, (List.range retries).map (fun j => delay * 2 ^ j))) := by
  unfold retry_with_backoff
  rw [retry_run_always_fails op delay hfail retries 0]
  simp

/-- Witness for `c2_retry_exhaustion` at a concrete always-failing
operation. -/
theorem c2_retry_exhaustion_witness :
    retry_with_backoff (fun _ => (Except.error "boom" : Except String Nat))
        3 2000 =
      (Except.error "All retries failed",
        (3, (List.range 3).map (fun j => 2000 * 2 ^ j))) :=
  c2_retry_exhaustion (fun _ => Except.error "boom") 3 2000
    (fun _ => ⟨"boom", rfl⟩)

/-! ## SelectorResolver model

`fallback_locator` (utils.py lines 51-95) tries each selector in order
against `base := scope or page`, returning the first whose `count()` is
positive; exceptions from `locator`/`count` are swallowed and treated as
no match.  If none matches it tries the attribute-equality fallbacks
`tag[attr='value']` (only those whose attr key and value are truthy), and
finally raises `ValueError("No selectors matched any elements: ...")` —
the concrete form of the spec's `ElementNotFoundError`.  A scope (or the
page) is modelled by its count function `String → Option Nat`, where
`none` models an exception raised while matching that selector. -/

def sel_matches (base : String → Option Nat) (s : String) : Bool :=
  match base s with
  | some n => decide (0 < n)
  | none => false

structure FallbackAttr where
  tag : Option String
  attr : Option String
  value : Option String

/-- Single-quote character (codepoint 39), used to build the attribute
equality expression. -/
def squote : String := String.singleton (Char.ofNat 39)

/-- Builds the expression `tag[key=(quote)value(quote)]` for a fallback
attribute whose `attr` key and `value` are truthy (present and non-empty);
`tag` defaults to `*` as in the source's `attr.get` with default. -/
def attr_expr (a : FallbackAttr) : Option String :=
  match a.attr, a.value with
  | some k, some v =>
    if k = "" ∨ v = "" then none
    else some ((a.tag.getD "*") ++ "[" ++ k ++ "=" ++ squote ++ v ++
      squote ++ "]")
  | _, _ => none

def fallback_locator (page : String → Option Nat) (selectors : List String)
    (scope : Option (String → Option Nat))
    (fallback_attrs : List FallbackAttr) : Except String String :=
  let base := scope.getD page
  match selectors.find? (fun s => sel_matches base s) with
  | some s => Except.ok s
  | none =>
    match (fallback_attrs.filterMap attr_expr).find?
        (fun e => sel_matches base e) with
    | some e => Except.ok e
    | none => Except.error "No selectors matched any elements"

theorem find?_first {α : Type} (p : α → Bool) (pre post : List α) (a : α)
    (hpre : ∀ t ∈ pre, p t = false) (ha : p a = true) :
    (pre ++ a :: post).find? p = some a := by
  induction pre with
  | nil => simp [List.find?, ha]
  | cons x rest ih =>
    have hx := hpre x (by simp)
    simp only [List.cons_append, List.find?, hx]
    exact ih (fun t ht => hpre t (by simp [ht]))

/-- C3: the selector resolver returns the first candidate, in order, whose
match set within the supplied scope is non-empty; when every candidate and
every attribute-equality fallback matches nothing, it fails with the
element-not-found error; and when a scope is supplied the result depends
only on the scope's match counts, never on the rest of the page. -/
theorem c3_selector_resolution (page : String → Option Nat)
    (scope : Option (String → Option Nat)) (pre post : List String)
    (s : String) (fallback_attrs : List FallbackAttr)
    (hpre : ∀ t ∈ pre, sel_matches (scope.getD page) t = false)
    (hs : sel_matches (scope.getD page) s = true) :
    fallback_locator page (pre ++ s :: post) scope fallback_attrs =
      Except.ok s ∧
    (∀ (sels2 : List String) (attrs2 : List FallbackAttr),
      (∀ t ∈ sels2, sel_matches (scope.getD page) t = false) →
      (∀ e ∈ attrs2.filterMap attr_expr,
        sel_matches (scope.getD page) e = false) →
      fallback_locator page sels2 scope attrs2 =
        Except.error "No selectors matched any elements") ∧
    (∀ (sc page2 : String → Option Nat) (sels : List String)
        (attrs : List FallbackAttr),
      fallback_locator page sels (some sc) attrs =
        fallback_locator page2 sels (some sc) attrs) := by
  refine ⟨?_, ?_, ?_⟩
  · simp only [fallback_locator]
    rw [find?_first (fun t => sel_matches (scope.getD page) t)
      pre post s hpre hs]
  · intro sels2 attrs2 h1 h2
    simp only [fallback_locator]
    have h1f : List.find? (fun t => sel_matches (scope.getD page) t) sels2
        = none :=
      List.find?_eq_none.mpr (fun t ht => by simp [h1 t ht])
    have h2f : List.find? (fun t => sel_matches (scope.getD page) t)
        (attrs2.filterMap attr_expr) = none :=
      List.find?_eq_none.mpr (fun e he => by simp [h2 e he])
    rw [h1f, h2f]
  · intro sc page2 sels attrs
    rfl

/-- Concrete count function for the C3 witness: `div.b` matches twice,
`div.err` raises, everything else matches nothing. -/
def count_w : String → Option Nat := fun s =>
  if s = "div.b" then some 2 else if s = "div.err" then none else some 0

/-- Witness for `c3_selector_resolution`: a candidate list whose first
match is third in rank (after a non-matching and a throwing candidate),
and an all-empty candidate list with a non-matching attribute fallback. -/
theorem c3_selector_resolution_witness :
    fallback_locator count_w ["div.a", "div.err", "div.b", "div.c"] none []
      = Except.ok "div.b" ∧
    fallback_locator count_w ["div.a"] none
        [⟨some "li", some "data-cy", some "x"⟩] =
      Except.error "No selectors matched any elements" := by
  have h := c3_selector_resolution count_w none ["div.a", "div.err"]
    ["div.c"] "div.b" [] (by decide) (by decide)
  exact ⟨h.1, h.2.1 ["div.a"] [⟨some "li", some "data-cy", some "x"⟩]
    (by decide) (by decide)⟩

/-! ## Stage-2/3 leaf construction: scrape_entry

`scrape_entry` (async_scrapper.py lines 310-353): for each tile of
`tile_data`, it reads `tile.get("product_link")`; a falsy link (absent,
null, or empty) makes it `continue` — no detail fetch, and the tile is NOT
added to `full_product_details`.  For a truthy link it navigates to the
detail page and appends `{**tile, **full_data}`; a failing fetch is caught
and the tile is likewise dropped.  `PyDict` is the dict model; `fetch u`
is the detail fetch at url `u` (`none` models a raised/caught exception).
The function returns (records appended, detail urls visited). -/

abbrev PyDict := List (String × Option String)

def tile_link (tile : PyDict) : Option String :=
  match dget "product_link" tile with
  | some (some s) => if s = "" then none else some s
  | _ => none

def scrape_entry (fetch : String → Option PyDict) :
    List PyDict → List PyDict × List String
  | [] => ([], [])
  | tile :: rest =>
    match tile_link tile with
    | none => scrape_entry fetch rest
    | some u =>
      let r := scrape_entry fetch rest
      match fetch u with
      | some full => (dictMerge tile full :: r.1, u :: r.2)
      | none => (r.1, u :: r.2)

def tile_no_link : PyDict :=
  [("manufacturer_name", some "Acme"), ("product_link", none)]

def fetch_never : String → Option PyDict := fun _ => none

/-- C4 counterexample: a tile whose detail link is null triggers no detail
fetch (visited-url list empty) but is also DROPPED from the products list
(records empty), not retained as a tombstone with a null ProductDetail and
a recorded reason as the claim requires. -/
theorem c4_counterexample :
    scrape_entry fetch_never [tile_no_link] = ([], []) := by
  rfl

/-- C4 amended: detail fetches are attempted exactly for the tiles with a
truthy (non-null, non-empty) detail link — so a tile with a null link gets
no Stage-3 fetch — but such a tile is silently dropped from the entry's
products rather than kept as a tombstone, and a tile whose fetch fails is
dropped as well; the records kept are exactly the merged tile+detail dicts
of the tiles whose link was truthy and whose fetch succeeded. -/
theorem c4_link_gating (fetch : String → Option PyDict)
    (tiles : List PyDict) :
    (scrape_entry fetch tiles).2 = tiles.filterMap tile_link ∧
    (scrape_entry fetch tiles).1 =
      tiles.filterMap (fun t =>
        (tile_link t).bind (fun u =>
          (fetch u).map (fun d => dictMerge t d))) := by
  induction tiles with
  | nil => exact ⟨rfl, rfl⟩
  | cons t rest ih =>
    cases hl : tile_link t with
    | none => simpa [scrape_entry, hl, List.filterMap_cons] using ih
    | some u =>
      cases hf : fetch u with
      | none =>
        exact ⟨by simp [scrape_entry, hl, hf, List.filterMap_cons, ih.1],
          by simp [scrape_entry, hl, hf, List.filterMap_cons, ih.2]⟩
      | some d =>
        exact ⟨by simp [scrape_entry, hl, hf, List.filterMap_cons, ih.1],
          by simp [scrape_entry, hl, hf, List.filterMap_cons, ih.2]⟩

/-! ## Pagination traversal: extract_all_pages

`extract_product_info_from_page` (async_scrapper.py lines 360-511) scans
the product tiles of the current page; when it finds a "see more" redirect
tile it performs `page.goto(next_page_url)` and recurses, WITHOUT consulting
or updating the `visited` parameter it receives (the parameter is dead),
and discards the results collected so far on the current page.

`extract_all_pages` (lines 515-570) opens a page, seeds
`visited = {start_url}`, extracts the first page, collects the pagination
hrefs of the FIRST page (`.pagination-wrapper a:not(.next)`), and follows
each href that is not yet in `visited`, adding it to `visited` before the
navigation.

A fixture website is a `PageGraph`: per URL, the extracted tile payloads
(abstract ids), the optional "see more" redirect target, and the pagination
hrefs.  The unbounded recursion is modelled with fuel: a `none` result means
the recursion consumed every fuel bound, i.e. it does not terminate.  The
second result component is the log of `page.goto` navigations performed. -/

structure PageGraph where
  tiles : String → List Nat
  seeMore : String → Option String
  pagination : String → List String

def extract_product_info_from_page (g : PageGraph) :
    Nat → String → Option (List Nat × List String)
  | 0, _ => none
  | fuel + 1, url =>
    match g.seeMore url with
    | some nxt =>
      (extract_product_info_from_page g fuel nxt).map
        (fun r => (r.1, nxt :: r.2))
    | none => some (g.tiles url, [])

def extract_all_pages_go (g : PageGraph) (fuel : Nat) :
    List String → List String → List Nat → List String →
      Option (List Nat × List String)
  | [], _, acc, log => some (acc, log)
  | href :: rest, visited, acc, log =>
    if href ∈ visited then
      extract_all_pages_go g fuel rest visited acc log
    else
      match extract_product_info_from_page g fuel href with
      | none => none
      | some (r, nav) =>
        extract_all_pages_go g fuel rest (href :: visited) (acc ++ r)
          (log ++ href :: nav)

def extract_all_pages (g : PageGraph) (fuel : Nat) (start_url : String) :
    Option (List Nat × List String) :=
  match extract_product_info_from_page g fuel start_url with
  | none => none
  | some (r0, nav0) =>
    extract_all_pages_go g fuel (g.pagination start_url) [start_url] r0
      (start_url :: nav0)

/-- Page-link graph whose "see more" redirect tile on every page points
back to the already-visited start URL "p0". -/
def cyc_graph : PageGraph :=
  { tiles := fun _ => []
    seeMore := fun _ => some "p0"
    pagination := fun _ => [] }

theorem extract_info_cyc (fuel : Nat) :
    extract_product_info_from_page cyc_graph fuel "p0" = none := by
  induction fuel with
  | zero => rfl
  | succ n ih =>
    have hsm : cyc_graph.seeMore "p0" = some "p0" := rfl
    rw [extract_product_info_from_page, hsm]
    simp [ih]

/-- C5 counterexample: on a page-link graph whose "see more" tile cycles
back to the already-visited start URL, the traversal never terminates (it
exhausts every fuel bound): the "see more" link is followed without being
checked against the visited set. -/
theorem c5_counterexample :
    ¬ ∃ (fuel : Nat) (r : List Nat × List String),
        extract_all_pages cyc_graph fuel "p0" = some r := by
  rintro ⟨fuel, r, h⟩
  unfold extract_all_pages at h
  rw [extract_info_cyc] at h
  exact Option.noConfusion h

theorem extract_all_pages_go_spec (g : PageGraph)
    (hsm : ∀ u, g.seeMore u = none) :
    ∀ (hrefs visited : List String) (acc : List Nat) (log : List String),
      (∀ x ∈ log, x ∈ visited) → log.Nodup →
      ∃ acc2 log2,
        extract_all_pages_go g 1 hrefs visited acc log =
          some (acc2, log ++ log2) ∧
        (log ++ log2).Nodup ∧
        (∀ h ∈ hrefs, h ∈ visited ∨ h ∈ log2) ∧
        (∀ x ∈ log2, x ∈ hrefs) := by
  intro hrefs
  induction hrefs with
  | nil =>
    intro visited acc log hlv hnd
    exact ⟨acc, [], by simp [extract_all_pages_go], by simpa using hnd,
      by simp, by simp⟩
  | cons href rest ih =>
    intro visited acc log hlv hnd
    by_cases hv : href ∈ visited
    · obtain ⟨acc2, log2, hgo, hnd2, hcov, hsub⟩ := ih visited acc log hlv hnd
      refine ⟨acc2, log2, ?_, hnd2, ?_, ?_⟩
      · simpa [extract_all_pages_go, hv] using hgo
      · intro h hh
        rcases List.mem_cons.mp hh with rfl | hh
        · exact Or.inl hv
        · exact hcov h hh
      · exact fun x hx => List.mem_cons_of_mem _ (hsub x hx)
    · have hinfo : extract_product_info_from_page g 1 href =
          some (g.tiles href, []) := by
        simp [extract_product_info_from_page, hsm href]
      have hlv2 : ∀ x ∈ log ++ [href], x ∈ href :: visited := by
        intro x hx
        rcases List.mem_append.mp hx with hx | hx
        · exact List.mem_cons_of_mem _ (hlv x hx)
        · simp at hx
          simp [hx]
      have hnd2 : (log ++ [href]).Nodup := by
        refine List.Nodup.append hnd (List.nodup_singleton _) ?_
        intro x hx hx2
        simp at hx2
        exact hv (hx2 ▸ hlv x hx)
      obtain ⟨acc2, log2, hgo, hnd3, hcov, hsub⟩ :=
        ih (href :: visited) (acc ++ g.tiles href) (log ++ [href]) hlv2 hnd2
      refine ⟨acc2, href :: log2, ?_, ?_, ?_, ?_⟩
      · rw [extract_all_pages_go, if_neg hv, hinfo]
        simpa [List.append_assoc] using hgo
      · simpa [List.append_assoc] using hnd3
      · intro h hh
        rcases List.mem_cons.mp hh with rfl | hh
        · exact Or.inr (List.mem_cons_self _ _)
        · rcases hcov h hh with hx | hx
          · rcases List.mem_cons.mp hx with rfl | hx
            · exact Or.inr (List.mem_cons_self _ _)
            · exact Or.inl hx
          · exact Or.inr (List.mem_cons_of_mem _ hx)
      · intro x hx
        rcases List.mem_cons.mp hx with rfl | hx
        · exact List.mem_cons_self _ _
        · exact List.mem_cons_of_mem _ (hsub x hx)

/-- C5 amended: the deduplication holds only for the pagination links
collected from the first page: on a graph with no "see more" redirect
tiles, `extract_all_pages` terminates, navigates to the start URL first and
then to each distinct first-page pagination href at most once (the log has
no duplicates, even when the pagination links contain duplicates or a link
back to the visited start URL), covers every discovered pagination link,
and navigates nowhere else.  "See more" links, however, bypass the visited
set entirely (see the counterexample). -/
theorem c5_pagination_dedup (g : PageGraph) (start : String)
    (hsm : ∀ u, g.seeMore u = none) :
    ∃ res, extract_all_pages g 1 start = some res ∧
      res.2.Nodup ∧
      res.2.head? = some start ∧
      (∀ h ∈ g.pagination start, h ∈ res.2) ∧
      (∀ x ∈ res.2, x = start ∨ x ∈ g.pagination start) := by
  have hinfo : extract_product_info_from_page g 1 start =
      some (g.tiles start, []) := by
    simp [extract_product_info_from_page, hsm start]
  obtain ⟨acc2, log2, hgo, hnd, hcov, hsub⟩ :=
    extract_all_pages_go_spec g hsm (g.pagination start) [start]
      (g.tiles start) [start] (by simp) (List.nodup_singleton _)
  refine ⟨(acc2, [start] ++ log2), ?_, hnd, by simp, ?_, ?_⟩
  · unfold extract_all_pages
    rw [hinfo]
    simpa using hgo
  · intro h hh
    rcases hcov h hh with hx | hx
    · simp at hx
      simp [hx]
    · simp [hx]
  · intro x hx
    rcases List.mem_append.mp hx with hx | hx
    · simp at hx
      exact Or.inl hx
    · exact Or.inr (hsub x hx)

/-- Fixture graph for the C5 witness: four first-page pagination links
containing a duplicate and a cycle back to the start URL. -/
def para_graph : PageGraph :=
  { tiles := fun _ => [7]
    seeMore := fun _ => none
    pagination := fun u => if u = "s" then ["a", "b", "a", "s"] else [] }

/-- Witness for `c5_pagination_dedup` on `para_graph`. -/
theorem c5_pagination_dedup_witness :
    ∃ res, extract_all_pages para_graph 1 "s" = some res ∧
      res.2.Nodup ∧
      res.2.head? = some "s" ∧
      (∀ h ∈ para_graph.pagination "s", h ∈ res.2) ∧
      (∀ x ∈ res.2, x = "s" ∨ x ∈ para_graph.pagination "s") :=
  c5_pagination_dedup para_graph "s" (fun _ => rfl)

/-! ## Stage-1 index-entry discovery: scrape_product_listing_index

`scrape_product_listing_index` (async_scrapper.py lines 121-180): navigates
to the subcategory URL, reads the page heading, and returns early (storing
nothing — the spec's PageIdentityMismatchError outcome) when
`page_heading.lower() != subcategory_name.lower()`.  Otherwise it walks the
`ul.category-grouplist` groups; for each `li` item it skips the item when
there is no `a` tag, and otherwise records title (stripped inner text),
`href` (the raw attribute, possibly null — no validation happens), and
image src/alt (attribute values when an `img` exists, else the empty
string).  `scrape_all_subcategory_indexes` (lines 97-118) runs one such job
per subcategory, each wrapped in its own try/except so siblings continue. -/

/-- Python `str.lower()` (character-wise lowering, as the source applies it
to ASCII headings). -/
def py_lower (s : String) : String := String.mk (s.data.map Char.toLower)

/-- Python `str.strip()`: drops leading and trailing whitespace. -/
def py_strip (s : String) : String :=
  String.mk
    (((s.data.dropWhile Char.isWhitespace).reverse.dropWhile
      Char.isWhitespace).reverse)

structure RawAnchor where
  text : String
  href : Option String
deriving DecidableEq

structure RawImg where
  src : Option String
  alt : Option String
deriving DecidableEq

structure RawItem where
  anchor : Option RawAnchor
  img : Option RawImg
deriving DecidableEq

structure IndexEntry where
  title : String
  href : Option String
  imgSrc : Option String
  imgAlt : Option String
deriving DecidableEq

def mk_index_entry (item : RawItem) (a : RawAnchor) : IndexEntry :=
  { title := py_strip a.text
    href := a.href
    imgSrc := match item.img with | some im => im.src | none => some ""
    imgAlt := match item.img with | some im => im.alt | none => some "" }

def collect_items : List RawItem → List IndexEntry
  | [] => []
  | item :: rest =>
    match item.anchor with
    | none => collect_items rest
    | some a => mk_index_entry item a :: collect_items rest

def collect_entries (groups : List (List RawItem)) : List IndexEntry :=
  (groups.map collect_items).flatten

structure SubPage where
  heading : String
  groups : List (List RawItem)

def scrape_product_listing_index (subcategory_name : String)
    (pg : SubPage) : Option (List IndexEntry) :=
  if py_lower pg.heading ≠ py_lower subcategory_name then none
  else some (collect_entries pg.groups)

def scrape_all_subcategory_indexes (subs : List (String × SubPage)) :
    List (Option (List IndexEntry)) :=
  subs.map (fun p => scrape_product_listing_index p.1 p.2)

/-- C6: the fetched page's heading is compared case-insensitively against
the expected subcategory name; on mismatch the unit yields the mismatch
outcome (nothing is stored and the unit is skipped, with no retry path in
the function), on match the index entries are collected, and each sibling
subcategory job's outcome is independent of the others in the stage's
fan-out. -/
theorem c6_page_identity (name : String) (pg : SubPage) :
    (scrape_product_listing_index name pg = none ↔
      py_lower pg.heading ≠ py_lower name) ∧
    (py_lower pg.heading = py_lower name →
      scrape_product_listing_index name pg =
        some (collect_entries pg.groups)) ∧
    (∀ (pre post : List (String × SubPage)) (p : String × SubPage),
      scrape_all_subcategory_indexes (pre ++ p :: post) =
        scrape_all_subcategory_indexes pre ++
          scrape_product_listing_index p.1 p.2 ::
            scrape_all_subcategory_indexes post) := by
  refine ⟨?_, ?_, ?_⟩
  · by_cases h : py_lower pg.heading = py_lower name <;>
      simp [scrape_product_listing_index, h]
  · intro h
    simp [scrape_product_listing_index, h]
  · intro pre post p
    simp [scrape_all_subcategory_indexes]

def sub_page_w : SubPage := { heading := "Mobility Equipment", groups := [] }

/-- Witness for `c6_page_identity`: a heading differing only in case is
accepted, a different heading is skipped. -/
theorem c6_page_identity_witness :
    scrape_product_listing_index "MOBILITY equipment" sub_page_w =
      some (collect_entries sub_page_w.groups) ∧
    scrape_product_listing_index "Imaging" sub_page_w = none :=
  ⟨(c6_page_identity "MOBILITY equipment" sub_page_w).2.1 (by decide),
    (c6_page_identity "Imaging" sub_page_w).1.mpr (by decide)⟩

/-- Raw item whose anchor carries no href attribute. -/
def item_null_href : RawItem :=
  { anchor := some { text := "Beds", href := none }, img := none }

/-- The entry the code records for `item_null_href`. -/
def entry_null_href : IndexEntry :=
  { title := "Beds", href := none, imgSrc := some "", imgAlt := some "" }

/-- C9 counterexample: an item whose `a` tag has no `href` attribute is
still recorded as an index entry with a null href — a dangling reference —
so not every IndexEntry in the tree has a validated absolute URL. -/
theorem c9_counterexample :
    collect_entries [[item_null_href]] = [entry_null_href] ∧
    ∃ e ∈ collect_entries [[item_null_href]], e.href = none := by
  exact ⟨by decide, by decide⟩

theorem collect_items_eq (l : List RawItem) :
    collect_items l =
      l.filterMap (fun item => (item.anchor).map (mk_index_entry item)) := by
  induction l with
  | nil => rfl
  | cons item rest ih =>
    cases h : item.anchor with
    | none => simp [collect_items, h, List.filterMap_cons, ih]
    | some a => simp [collect_items, h, List.filterMap_cons, ih]

/-- C9 amended: an item is dropped at discovery time only when it has no
anchor element at all; every discovered index entry comes verbatim from an
item with an anchor, with the anchor's raw href carried over unvalidated —
including a null href, which is retained rather than dropped. -/
theorem c9_entry_discovery (groups : List (List RawItem)) :
    collect_entries groups =
      groups.flatten.filterMap
        (fun item => (item.anchor).map (mk_index_entry item)) ∧
    (∀ e, e ∈ collect_entries groups ↔
      ∃ item ∈ groups.flatten, ∃ a, item.anchor = some a ∧
        e = mk_index_entry item a) := by
  have hmain : collect_entries groups =
      groups.flatten.filterMap
        (fun item => (item.anchor).map (mk_index_entry item)) := by
    induction groups with
    | nil => rfl
    | cons g rest ih =>
      simp [collect_entries, List.flatten, List.filterMap_append,
        collect_items_eq g]
      simpa [collect_entries] using ih
  refine ⟨hmain, fun e => ?_⟩
  rw [hmain]
  constructor
  · intro he
    obtain ⟨item, hitem, hmap⟩ := List.mem_filterMap.mp he
    cases ha : item.anchor with
    | none => rw [ha] at hmap; exact absurd hmap (by simp)
    | some a =>
      rw [ha] at hmap
      exact ⟨item, hitem, a, ha, by simpa using hmap.symm⟩
  · rintro ⟨item, hitem, a, ha, rfl⟩
    exact List.mem_filterMap.mpr ⟨item, hitem, by simp [ha]⟩

/-- Witness for `c9_entry_discovery`: membership characterization applied
at a concrete discovered entry. -/
theorem c9_entry_discovery_witness :
    entry_null_href ∈ collect_entries [[item_null_href]] :=
  ((c9_entry_discovery [[item_null_href]]).2 entry_null_href).mpr
    ⟨item_null_href, by decide, { text := "Beds", href := none }, rfl,
      by decide⟩

/-! ## Product tiles: scrape_tile_data / scrape_product_overview_tiles

`scrape_tile_data` (scrape_product_tiles_async.py lines 38-58) extracts the
tile's title (stripped inner text of `h3.short-name`, or None); when the
title is truthy and contains the placeholder marker (two opening braces) it
returns None, otherwise it returns a dict with the fields manufacturer_img,
tile_img, tile_description, has_video, features, product_link — and no
product-title field.  `scrape_product_overview_tiles` (lines 16-35) keeps
only the non-None results of `scrape_tile_data` on the first page's tiles,
then `handle_pagination` appends the same filtered extraction for the tiles
of each pagination link after the first.  A `TileEl` holds the raw DOM
facts the helpers read; a missing title is `none`.  (An empty-string title
is falsy in Python and skips the placeholder test, but an empty string
cannot contain the marker, so the conditional below is equivalent.) -/

structure TileEl where
  title : Option String
  logo : Option RawImg
  insetImg : Option RawImg
  desc : Option String
  hasVideoTag : Bool
  featureSpans : List String
  linkHref : Option String
deriving DecidableEq

structure TileData where
  manufacturerImg : Option String × Option String
  tileImg : Option String × Option String
  tileDescription : String
  hasVideo : Bool
  features : List String
  productLink : Option String
deriving DecidableEq

/-- The placeholder marker: two opening curly braces. -/
def placeholder_mark : String :=
  String.mk [Char.ofNat 123, Char.ofNat 123]

def starts_with : List Char → List Char → Bool
  | [], _ => true
  | _ :: _, [] => false
  | c :: cs, d :: ds => c = d && starts_with cs ds

def has_infix (needle : List Char) : List Char → Bool
  | [] => needle.isEmpty
  | c :: rest => starts_with needle (c :: rest) || has_infix needle rest

/-- Python `"marker" in s` substring test. -/
def contains_placeholder (s : String) : Bool :=
  has_infix placeholder_mark.data s.data

/-- Manufacturer image meta (`_extract_manufacturer_img`): attribute values
when the `a.logo img` element exists, else empty strings. -/
def manufacturer_img_meta (o : Option RawImg) :
    Option String × Option String :=
  match o with
  | some im => (im.src, im.alt)
  | none => (some "", some "")

/-- Tile image meta (`_extract_tile_img`): attribute values when the
`.inset-img img` element exists, else nulls. -/
def tile_img_meta (o : Option RawImg) : Option String × Option String :=
  match o with
  | some im => (im.src, im.alt)
  | none => (none, none)

/-- Product link resolution wrapper (`_extract_product_link`): returns the
resolved link when truthy, else null. -/
def extract_product_link (t : TileEl) : Option String :=
  match t.linkHref with
  | some s => if s = "" then none else some s
  | none => none

/-- The dict built by `scrape_tile_data` for a non-placeholder tile; note
it has no product-title field. -/
def tile_record (t : TileEl) : TileData :=
  { manufacturerImg := manufacturer_img_meta t.logo
    tileImg := tile_img_meta t.insetImg
    tileDescription := (t.desc.map py_strip).getD ""
    hasVideo := t.hasVideoTag
    features := t.featureSpans.map py_strip
    productLink := extract_product_link t }

def scrape_tile_data (t : TileEl) : Option TileData :=
  match t.title.map py_strip with
  | some s => if contains_placeholder s then none else some (tile_record t)
  | none => some (tile_record t)

def scrape_product_overview_tiles (firstTiles : List TileEl)
    (otherPages : List (List TileEl)) : List TileData :=
  firstTiles.filterMap scrape_tile_data ++
    (otherPages.map (fun pg => pg.filterMap scrape_tile_data)).flatten

/-- C10: `scrape_tile_data` returns None exactly when the tile's extracted
(stripped) title is non-null and contains the placeholder marker; every
tile record in the overview result comes from a non-placeholder tile (so
placeholder tiles are silently dropped); and the produced record does not
depend on the title at all — it carries no product-title field. -/
theorem c10_placeholder_filter :
    (∀ t : TileEl, scrape_tile_data t = none ↔
      ∃ s, t.title = some s ∧ contains_placeholder (py_strip s) = true) ∧
    (∀ (firstTiles : List TileEl) (otherPages : List (List TileEl))
        (d : TileData),
      d ∈ scrape_product_overview_tiles firstTiles otherPages →
      ∃ t : TileEl, (t ∈ firstTiles ∨ ∃ pg ∈ otherPages, t ∈ pg) ∧
        scrape_tile_data t = some d ∧
        ¬ ∃ s, t.title = some s ∧
          contains_placeholder (py_strip s) = true) ∧
    (∀ (t : TileEl) (x : Option String),
      tile_record { t with title := x } = tile_record t) := by
  have hiff : ∀ t : TileEl, scrape_tile_data t = none ↔
      ∃ s, t.title = some s ∧ contains_placeholder (py_strip s) = true := by
    intro t
    cases ht : t.title with
    | none => simp [scrape_tile_data, ht]
    | some s =>
      by_cases hc : contains_placeholder (py_strip s) = true
      · simp [scrape_tile_data, ht, hc]
      · simp [scrape_tile_data, ht, hc]
  refine ⟨hiff, ?_, ?_⟩
  · intro firstTiles otherPages d hd
    have hsrc : ∃ t : TileEl, (t ∈ firstTiles ∨ ∃ pg ∈ otherPages, t ∈ pg) ∧
        scrape_tile_data t = some d := by
      rcases List.mem_append.mp hd with hd | hd
      · obtain ⟨t, ht, hmap⟩ := List.mem_filterMap.mp hd
        exact ⟨t, Or.inl ht, hmap⟩
      · obtain ⟨l, hl, hdl⟩ := List.mem_flatten.mp hd
        obtain ⟨pg, hpg, rfl⟩ := List.mem_map.mp hl
        obtain ⟨t, ht, hmap⟩ := List.mem_filterMap.mp hdl
        exact ⟨t, Or.inr ⟨pg, hpg, ht⟩, hmap⟩
    obtain ⟨t, hsrc, hsome⟩ := hsrc
    refine ⟨t, hsrc, hsome, fun hph => ?_⟩
    rw [(hiff t).mpr hph] at hsome
    exact Option.noConfusion hsome
  · intro t x
    rfl

/-- Tile whose raw title is the template placeholder. -/
def tile_ph : TileEl :=
  { title := some (placeholder_mark ++ "productName")
    logo := none
    insetImg := none
    desc := none
    hasVideoTag := false
    featureSpans := []
    linkHref := none }

/-- Well-formed tile used in the C10 witness. -/
def tile_ok : TileEl :=
  { tile_ph with title := some "Hospital bed", linkHref := some "/p/1.html" }

/-- Witness for `c10_placeholder_filter`: the placeholder tile is dropped,
and the produced record ignores the title field. -/
theorem c10_placeholder_filter_witness :
    scrape_tile_data tile_ph = none ∧
    tile_record { tile_ok with title := some "Renamed" } =
      tile_record tile_ok :=
  ⟨(c10_placeholder_filter.1 tile_ph).mpr
      ⟨placeholder_mark ++ "productName", rfl, by decide⟩,
    c10_placeholder_filter.2.2 tile_ok (some "Renamed")⟩

/-! ## ConcurrencyLimiter model

`scrape_all_subcategory_indexes` (async_scrapper.py lines 97-118) and
`scrape_entry` inside `scrape_product_overview` (lines 301-355) both run
each task as

  async with sem:                 -- acquire, release on every exit
      page = await ctx.new_page() -- open the per-task rendering context
      try: ...work...             -- success or error
      finally: await page.close() -- close on every exit path

with `asyncio.Semaphore(8)` for stage 1 and `asyncio.Semaphore(5)` for the
entry processing.  A task is modelled by its phase; a scheduler step picks
one task and advances it, and acquiring is enabled only while fewer than K
tasks hold a permit.  Work failure and success both reach the `finally`,
so both are the `close_page` step.

`handle_pagination` (scrape_product_tiles_async.py lines 146-161), by
contrast, gathers one `scrape_paginated_data` task per pagination link
after the first with NO semaphore, and each such task launches its own
browser; its tasks are modelled by `PagPhase` with an unguarded open
step. -/

inductive SemPhase where
  | pending
  | acquired
  | opened
  | closed
  | done
deriving DecidableEq

def holds_permit : SemPhase → Bool
  | SemPhase.pending => false
  | SemPhase.done => false
  | _ => true

def page_open : SemPhase → Bool
  | SemPhase.opened => true
  | _ => false

def countP (f : SemPhase → Bool) (s : List SemPhase) : Nat :=
  (s.filter f).length

inductive SemStep (K : Nat) : List SemPhase → List SemPhase → Prop where
  | acquire (s1 s2 : List SemPhase) :
      countP holds_permit (s1 ++ SemPhase.pending :: s2) < K →
      SemStep K (s1 ++ SemPhase.pending :: s2)
        (s1 ++ SemPhase.acquired :: s2)
  | open_page (s1 s2 : List SemPhase) :
      SemStep K (s1 ++ SemPhase.acquired :: s2)
        (s1 ++ SemPhase.opened :: s2)
  | close_page (s1 s2 : List SemPhase) :
      SemStep K (s1 ++ SemPhase.opened :: s2)
        (s1 ++ SemPhase.closed :: s2)
  | release (s1 s2 : List SemPhase) :
      SemStep K (s1 ++ SemPhase.closed :: s2)
        (s1 ++ SemPhase.done :: s2)

theorem countP_nil (f : SemPhase → Bool) : countP f [] = 0 := rfl

theorem countP_mid (f : SemPhase → Bool) (s1 s2 : List SemPhase)
    (x : SemPhase) :
    countP f (s1 ++ x :: s2) =
      countP f s1 + countP f s2 + (if f x then 1 else 0) := by
  by_cases h : f x <;>
    simp [countP, List.filter_append, List.filter_cons, h] <;> omega

theorem countP_replicate (f : SemPhase → Bool) (n : Nat) (x : SemPhase) :
    countP f (List.replicate n x) = if f x then n else 0 := by
  induction n with
  | zero => by_cases h : f x <;> simp [countP, h]
  | succ m ih =>
    by_cases h : f x <;>
      simp [countP, List.replicate_succ, List.filter_cons, h] at ih ⊢ <;>
      omega

theorem open_le_permit (s : List SemPhase) :
    countP page_open s ≤ countP holds_permit s := by
  induction s with
  | nil => simp [countP]
  | cons x rest ih =>
    have h1 := countP_mid page_open [] rest x
    have h2 := countP_mid holds_permit [] rest x
    simp only [List.nil_append, countP_nil] at h1 h2
    have hcase : (if page_open x then 1 else 0) ≤
        (if holds_permit x then 1 else 0) := by
      cases x <;> simp [page_open, holds_permit]
    omega

theorem sem_step_length {K : Nat} {a b : List SemPhase}
    (h : SemStep K a b) : b.length = a.length := by
  cases h <;> simp

theorem sem_reach_holds_le (K n : Nat) (s : List SemPhase)
    (hr : Relation.ReflTransGen (SemStep K)
      (List.replicate n SemPhase.pending) s) :
    countP holds_permit s ≤ K := by
  induction hr with
  | refl => simp [countP_replicate, holds_permit]
  | tail hsteps hstep ih =>
    cases hstep with
    | acquire s1 s2 hlt =>
      rw [countP_mid] at hlt ⊢
      simp [holds_permit] at hlt ⊢
      omega
    | open_page s1 s2 =>
      rw [countP_mid] at ih ⊢
      simpa [holds_permit] using ih
    | close_page s1 s2 =>
      rw [countP_mid] at ih ⊢
      simpa [holds_permit] using ih
    | release s1 s2 =>
      rw [countP_mid] at ih ⊢
      simp [holds_permit] at ih ⊢
      omega

def phase_weight : SemPhase → Nat
  | SemPhase.pending => 4
  | SemPhase.acquired => 3
  | SemPhase.opened => 2
  | SemPhase.closed => 1
  | SemPhase.done => 0

def sem_measure (s : List SemPhase) : Nat := (s.map phase_weight).sum

theorem sem_measure_mid (s1 s2 : List SemPhase) (x : SemPhase) :
    sem_measure (s1 ++ x :: s2) =
      sem_measure s1 + sem_measure s2 + phase_weight x := by
  simp [sem_measure]
  omega

theorem countP_eq_zero (f : SemPhase → Bool) (s : List SemPhase)
    (h : ∀ x ∈ s, f x = false) : countP f s = 0 := by
  simp [countP, List.length_eq_zero, List.filter_eq_nil]
  intro a ha
  simp [h a ha]

theorem phase_weight_pos (x : SemPhase) (h : x ≠ SemPhase.done) :
    1 ≤ phase_weight x := by
  cases x
  case done => exact absurd rfl h
  all_goals decide

theorem sem_drain (K : Nat) (hK : 1 ≤ K) :
    ∀ (m : Nat) (s : List SemPhase), sem_measure s ≤ m →
      Relation.ReflTransGen (SemStep K) s
        (List.replicate s.length SemPhase.done) := by
  intro m
  induction m with
  | zero =>
    intro s hm
    have hall : ∀ x ∈ s, x = SemPhase.done := by
      intro x hx
      by_contra hne
      obtain ⟨u, v, rfl⟩ := List.append_of_mem hx
      rw [sem_measure_mid] at hm
      have := phase_weight_pos x hne
      omega
    have : s = List.replicate s.length SemPhase.done :=
      List.eq_replicate.mpr ⟨rfl, hall⟩
    exact this ▸ Relation.ReflTransGen.refl
  | succ m ih =>
    intro s hm
    by_cases hdone : ∀ x ∈ s, x = SemPhase.done
    · have : s = List.replicate s.length SemPhase.done :=
        List.eq_replicate.mpr ⟨rfl, hdone⟩
      exact this ▸ Relation.ReflTransGen.refl
    · push_neg at hdone
      by_cases hmid : ∃ x ∈ s,
          x = SemPhase.acquired ∨ x = SemPhase.opened ∨ x = SemPhase.closed
      · obtain ⟨x, hx, hcase⟩ := hmid
        obtain ⟨s1, s2, rfl⟩ := List.append_of_mem hx
        rcases hcase with rfl | rfl | rfl
        · refine Relation.ReflTransGen.head (SemStep.open_page s1 s2) ?_
          have hb : sem_measure (s1 ++ SemPhase.opened :: s2) ≤ m := by
            rw [sem_measure_mid] at hm ⊢
            simp [phase_weight] at hm ⊢
            omega
          have := ih (s1 ++ SemPhase.opened :: s2) hb
          simpa using this
        · refine Relation.ReflTransGen.head (SemStep.close_page s1 s2) ?_
          have hb : sem_measure (s1 ++ SemPhase.closed :: s2) ≤ m := by
            rw [sem_measure_mid] at hm ⊢
            simp [phase_weight] at hm ⊢
            omega
          have := ih (s1 ++ SemPhase.closed :: s2) hb
          simpa using this
        · refine Relation.ReflTransGen.head (SemStep.release s1 s2) ?_
          have hb : sem_measure (s1 ++ SemPhase.done :: s2) ≤ m := by
            rw [sem_measure_mid] at hm ⊢
            simp [phase_weight] at hm ⊢
            omega
          have := ih (s1 ++ SemPhase.done :: s2) hb
          simpa using this
      · push_neg at hmid
        have hpd : ∀ x ∈ s, x = SemPhase.pending ∨ x = SemPhase.done := by
          intro x hx
          have := hmid x hx
          cases x <;> simp at this ⊢
        obtain ⟨x, hx, hxne⟩ := hdone
        have hxp : x = SemPhase.pending := by
          rcases hpd x hx with h | h
          · exact h
          · exact absurd h hxne
        subst hxp
        obtain ⟨s1, s2, rfl⟩ := List.append_of_mem hx
        have hzero : countP holds_permit
            (s1 ++ SemPhase.pending :: s2) = 0 := by
          apply countP_eq_zero
          intro y hy
          rcases hpd y hy with rfl | rfl <;> rfl
        refine Relation.ReflTransGen.head
          (SemStep.acquire s1 s2 (by omega)) ?_
        have hb : sem_measure (s1 ++ SemPhase.acquired :: s2) ≤ m := by
          rw [sem_measure_mid] at hm ⊢
          simp [phase_weight] at hm ⊢
          omega
        have := ih (s1 ++ SemPhase.acquired :: s2) hb
        simpa using this

inductive PagPhase where
  | pending
  | opened
  | closed
  | done
deriving DecidableEq

def pag_open : PagPhase → Bool
  | PagPhase.opened => true
  | _ => false

def countPag (f : PagPhase → Bool) (s : List PagPhase) : Nat :=
  (s.filter f).length

/-- Scheduler steps of the `handle_pagination` fan-out: one task per
pagination link, opening its own browser context with NO semaphore guard. -/
inductive PagStep : List PagPhase → List PagPhase → Prop where
  | open_ctx (s1 s2 : List PagPhase) :
      PagStep (s1 ++ PagPhase.pending :: s2) (s1 ++ PagPhase.opened :: s2)
  | close_ctx (s1 s2 : List PagPhase) :
      PagStep (s1 ++ PagPhase.opened :: s2) (s1 ++ PagPhase.closed :: s2)
  | finish (s1 s2 : List PagPhase) :
      PagStep (s1 ++ PagPhase.closed :: s2) (s1 ++ PagPhase.done :: s2)

theorem pag_all_open (m : Nat) :
    Relation.ReflTransGen PagStep (List.replicate m PagPhase.pending)
      (List.replicate m PagPhase.opened) := by
  suffices h : ∀ (b a : Nat), Relation.ReflTransGen PagStep
      (List.replicate a PagPhase.opened ++ List.replicate b PagPhase.pending)
      (List.replicate (a + b) PagPhase.opened) by
    simpa using h m 0
  intro b
  induction b with
  | zero => intro a; simpa using Relation.ReflTransGen.refl
  | succ k ih =>
    intro a
    refine Relation.ReflTransGen.head
      (PagStep.open_ctx (List.replicate a PagPhase.opened)
        (List.replicate k PagPhase.pending)) ?_
    have hmid : List.replicate a PagPhase.opened ++
        PagPhase.opened :: List.replicate k PagPhase.pending =
        List.replicate (a + 1) PagPhase.opened ++
          List.replicate k PagPhase.pending := by
      simp [List.replicate_succ', List.append_assoc]
    rw [hmid]
    have := ih (a + 1)
    have harith : a + 1 + k = a + (k + 1) := by omega
    rwa [harith] at this

theorem countPag_replicate_open (m : Nat) :
    countPag pag_open (List.replicate m PagPhase.opened) = m := by
  induction m with
  | zero => rfl
  | succ k ih =>
    simp [countPag, List.replicate_succ, List.filter_cons, pag_open]

/-- C7 counterexample: the `handle_pagination` fan-out has no limiter, so
nine pagination-link tasks can reach a state with nine rendering contexts
open at once — exceeding 8, the largest configured stage concurrency limit
in the program (stage 1 uses Semaphore(8), entry processing Semaphore(5)). -/
theorem c7_counterexample :
    ∃ s, Relation.ReflTransGen PagStep
        (List.replicate 9 PagPhase.pending) s ∧
      8 < countPag pag_open s := by
  refine ⟨List.replicate 9 PagPhase.opened, pag_all_open 9, ?_⟩
  rw [countPag_replicate_open]
  omega

/-- C7 amended: for the semaphore-gated fan-outs (stage-1 subcategory jobs
with limit 8, entry-processing jobs with limit 5), in every reachable
scheduler state the number of concurrently-open per-task contexts never
exceeds the stage's limit K, and from every reachable state the stage can
drain to the all-done state — every acquired permit is released and every
opened context closed on every exit path (success and error both pass
through the finally/async-with exits).  The per-pagination-link tasks of
`handle_pagination`, however, are not gated: for every m, a state with m
simultaneously open contexts is reachable. -/
theorem c7_scoped_concurrency (K n : Nat) (hK : 1 ≤ K)
    (s : List SemPhase)
    (hr : Relation.ReflTransGen (SemStep K)
      (List.replicate n SemPhase.pending) s) :
    countP page_open s ≤ K ∧
    Relation.ReflTransGen (SemStep K) s
      (List.replicate s.length SemPhase.done) ∧
    (∀ m : Nat, ∃ t, Relation.ReflTransGen PagStep
        (List.replicate m PagPhase.pending) t ∧
      countPag pag_open t = m) :=
  ⟨le_trans (open_le_permit s) (sem_reach_holds_le K n s hr),
    sem_drain K hK (sem_measure s) s le_rfl,
    fun m => ⟨List.replicate m PagPhase.opened, pag_all_open m,
      countPag_replicate_open m⟩⟩

/-- Witness for `c7_scoped_concurrency` at limit 8 with three tasks, taken
at the initial state. -/
theorem c7_scoped_concurrency_witness :
    countP page_open (List.replicate 3 SemPhase.pending) ≤ 8 ∧
    Relation.ReflTransGen (SemStep 8)
      (List.replicate 3 SemPhase.pending)
      (List.replicate 3 SemPhase.done) ∧
    (∀ m : Nat, ∃ t, Relation.ReflTransGen PagStep
        (List.replicate m PagPhase.pending) t ∧
      countPag pag_open t = m) :=
  c7_scoped_concurrency 8 3 (by omega) (List.replicate 3 SemPhase.pending)
    Relation.ReflTransGen.refl

/-! ## Stage sequencing: entrypoint

`entrypoint` (async_scrapper.py lines 598-633) runs, in order:
`extract_categories_from_homepage` (stage 0, one page, not modelled), then
`await scrape_all_subcategory_indexes(...)` — a gather over one job per
subcategory — and only after that gather returns,
`await scrape_product_overview(...)` — a gather over one `scrape_entry`
job per index entry.  Each `scrape_entry` (lines 310-353) first scrapes the
entry's tiles and then, within the same task, sequentially visits each
tile's detail page.  An execution is modelled as an event trace: a trace of
the whole run is any interleaving of the stage-1 job traces, followed (the
gather join) by any interleaving of the per-entry traces
`tiles k :: details of k`.  `no_later P Q t` says no P-event occurs after
any Q-event in `t`, i.e. every P-event precedes every Q-event. -/

inductive Ev where
  | s1 : Nat → Ev
  | tiles : Nat → Ev
  | detail : Nat → Nat → Ev
deriving DecidableEq

inductive Merge2 : List Ev → List Ev → List Ev → Prop where
  | nil : Merge2 [] [] []
  | left {x : Ev} {a b c : List Ev} :
      Merge2 a b c → Merge2 (x :: a) b (x :: c)
  | right {y : Ev} {a b c : List Ev} :
      Merge2 a b c → Merge2 a (y :: b) (y :: c)

def Interleave : List (List Ev) → List Ev → Prop
  | [], t => t = []
  | l :: ls, t => ∃ u, Interleave ls u ∧ Merge2 l u t

structure EntrySpec where
  id : Nat
  tileIds : List Nat
deriving DecidableEq

def entry_trace (e : EntrySpec) : List Ev :=
  Ev.tiles e.id :: e.tileIds.map (fun j => Ev.detail e.id j)

def stage1_trace (sub : Nat) : List Ev := [Ev.s1 sub]

def entrypoint_trace (subs : List Nat) (entries : List EntrySpec)
    (t : List Ev) : Prop :=
  ∃ t1 t2, Interleave (subs.map stage1_trace) t1 ∧
    Interleave (entries.map entry_trace) t2 ∧ t = t1 ++ t2

def is_s1 : Ev → Bool
  | Ev.s1 _ => true
  | _ => false

def is_tiles : Ev → Bool
  | Ev.tiles _ => true
  | _ => false

def is_detail : Ev → Bool
  | Ev.detail _ _ => true
  | _ => false

def is_stage23 (e : Ev) : Bool := is_tiles e || is_detail e

def is_tiles_of (k : Nat) : Ev → Bool
  | Ev.tiles j => decide (j = k)
  | _ => false

def is_detail_of (k : Nat) : Ev → Bool
  | Ev.detail j _ => decide (j = k)
  | _ => false

/-- No `P`-event occurs after any `Q`-event: every `P`-event of the trace
precedes every `Q`-event. -/
def no_later (P Q : Ev → Bool) : List Ev → Bool
  | [] => true
  | e :: t => (!(Q e) || t.all (fun f => !(P f))) && no_later P Q t

def pq_free (P Q : Ev → Bool) (l : List Ev) : Prop :=
  ∀ e ∈ l, P e = false ∧ Q e = false

theorem merge2_nil_right (l : List Ev) : Merge2 l [] l := by
  induction l with
  | nil => exact Merge2.nil
  | cons x rest ih => exact Merge2.left ih

theorem merge2_mem {a b c : List Ev} (h : Merge2 a b c) :
    ∀ x ∈ c, x ∈ a ∨ x ∈ b := by
  induction h with
  | nil => intro x hx; cases hx
  | left hm ih =>
    intro x hx
    rcases List.mem_cons.mp hx with rfl | hx
    · exact Or.inl (List.mem_cons_self _ _)
    · rcases ih x hx with h | h
      · exact Or.inl (List.mem_cons_of_mem _ h)
      · exact Or.inr h
  | right hm ih =>
    intro x hx
    rcases List.mem_cons.mp hx with rfl | hx
    · exact Or.inr (List.mem_cons_self _ _)
    · rcases ih x hx with h | h
      · exact Or.inl h
      · exact Or.inr (List.mem_cons_of_mem _ h)

theorem merge2_symm {a b c : List Ev} (h : Merge2 a b c) : Merge2 b a c := by
  induction h with
  | nil => exact Merge2.nil
  | left hm ih => exact Merge2.right ih
  | right hm ih => exact Merge2.left ih

theorem interleave_mem {ls : List (List Ev)} :
    ∀ {t : List Ev}, Interleave ls t → ∀ x ∈ t, ∃ l ∈ ls, x ∈ l := by
  induction ls with
  | nil =>
    intro t ht x hx
    rw [ht] at hx
    cases hx
  | cons l ls ih =>
    rintro t ⟨u, hu, hm⟩ x hx
    rcases merge2_mem hm x hx with h | h
    · exact ⟨l, List.mem_cons_self _ _, h⟩
    · obtain ⟨l2, hl2, hx2⟩ := ih hu x h
      exact ⟨l2, List.mem_cons_of_mem _ hl2, hx2⟩

theorem no_later_of_no_p (P Q : Ev → Bool) (t : List Ev)
    (h : ∀ e ∈ t, P e = false) : no_later P Q t = true := by
  induction t with
  | nil => rfl
  | cons e rest ih =>
    have hall : rest.all (fun f => !(P f)) = true :=
      List.all_eq_true.mpr (fun f hf => by simp [h f (by simp [hf])])
    simp [no_later, hall]
    exact ih (fun f hf => h f (by simp [hf]))

theorem no_later_append (P Q : Ev → Bool) (a b : List Ev)
    (ha : ∀ e ∈ a, Q e = false) (hb : ∀ e ∈ b, P e = false) :
    no_later P Q (a ++ b) = true := by
  induction a with
  | nil => exact no_later_of_no_p P Q b hb
  | cons e rest ih =>
    have hq : Q e = false := ha e (by simp)
    simp [no_later, hq]
    exact ih (fun f hf => ha f (by simp [hf]))

theorem no_later_append_free (P Q : Ev → Bool) (a b : List Ev)
    (ha : ∀ e ∈ a, Q e = false) (hb : no_later P Q b = true) :
    no_later P Q (a ++ b) = true := by
  induction a with
  | nil => simpa using hb
  | cons e rest ih =>
    have hq : Q e = false := ha e (by simp)
    simp [no_later, hq]
    exact ih (fun f hf => ha f (by simp [hf]))

theorem merge2_no_later (P Q : Ev → Bool) {a b c : List Ev}
    (h : Merge2 a b c) (hna : no_later P Q a = true)
    (hb : pq_free P Q b) : no_later P Q c = true := by
  induction h with
  | nil => rfl
  | left hm ih =>
    rename_i x a2 b2 c2
    simp only [no_later, Bool.and_eq_true] at hna
    have hrest : no_later P Q c2 = true :=
      ih hna.2 hb
    simp only [no_later, Bool.and_eq_true]
    refine ⟨?_, hrest⟩
    rcases Bool.or_eq_true_iff.mp hna.1 with hq | hall
    · simp [Bool.not_eq_true', Bool.not_eq_true] at hq
      simp [hq]
    · have hmem : ∀ f ∈ c2, P f = false := by
        intro f hf
        rcases merge2_mem hm f hf with h2 | h2
        · have := List.all_eq_true.mp hall f h2
          simpa using this
        · exact (hb f h2).1
      have : c2.all (fun f => !(P f)) = true :=
        List.all_eq_true.mpr (fun f hf => by simp [hmem f hf])
      simp [this]
  | right hm ih =>
    rename_i y a2 b2 c2
    have hyq : Q y = false := (hb y (by simp)).2
    have hb2 : pq_free P Q b2 := fun e he => hb e (by simp [he])
    have hrest : no_later P Q c2 = true := ih hna hb2
    simp [no_later, hyq, hrest]

theorem interleave_all_free (P Q : Ev → Bool) :
    ∀ (ls : List (List Ev)) (t : List Ev), Interleave ls t →
      (∀ l ∈ ls, pq_free P Q l) → no_later P Q t = true := by
  intro ls
  induction ls with
  | nil =>
    intro t ht _
    rw [ht]
    rfl
  | cons l ls ih =>
    rintro t ⟨u, hu, hm⟩ hfree
    have hl : pq_free P Q l := hfree l (by simp)
    have hut : no_later P Q u = true :=
      ih u hu (fun l2 hl2 => hfree l2 (by simp [hl2]))
    exact merge2_no_later P Q (merge2_symm hm) hut hl

theorem entry_trace_no_later (e : EntrySpec) :
    no_later (is_tiles_of e.id) (is_detail_of e.id) (entry_trace e)
      = true := by
  have htail : no_later (is_tiles_of e.id) (is_detail_of e.id)
      (e.tileIds.map (fun j => Ev.detail e.id j)) = true := by
    apply no_later_of_no_p
    intro f hf
    obtain ⟨j, hj, rfl⟩ := List.mem_map.mp hf
    rfl
  have hq : is_detail_of e.id (Ev.tiles e.id) = false := rfl
  have hall : (e.tileIds.map (fun j => Ev.detail e.id j)).all
      (fun f => !(is_tiles_of e.id f)) = true := by
    apply List.all_eq_true.mpr
    intro f hf
    obtain ⟨j, hj, rfl⟩ := List.mem_map.mp hf
    rfl
  simp [entry_trace, no_later, hq, htail]

theorem interleave_entry_order (k : Nat) :
    ∀ (es : List EntrySpec) (t : List Ev),
      Interleave (es.map entry_trace) t →
      (es.map EntrySpec.id).Nodup →
      no_later (is_tiles_of k) (is_detail_of k) t = true := by
  intro es
  induction es with
  | nil =>
    intro t ht _
    rw [show Interleave ([].map entry_trace) t = (t = []) from rfl] at ht
    rw [ht]
    rfl
  | cons e es ih =>
    rintro t ⟨u, hu, hm⟩ hnd
    rw [List.map_cons, List.nodup_cons] at hnd
    by_cases hk : e.id = k
    · subst hk
      have hufree : pq_free (is_tiles_of e.id) (is_detail_of e.id) u := by
        intro x hx
        obtain ⟨l2, hl2, hx2⟩ := interleave_mem hu x hx
        obtain ⟨e2, he2, rfl⟩ := List.mem_map.mp hl2
        have hne : e2.id ≠ e.id := by
          intro heq
          exact hnd.1 (heq ▸ List.mem_map_of_mem EntrySpec.id he2)
        rcases List.mem_cons.mp hx2 with rfl | hx2
        · constructor <;> simp [is_tiles_of, is_detail_of, hne]
        · obtain ⟨j, hj, rfl⟩ :=
            List.mem_map.mp (by simpa [entry_trace] using hx2)
          constructor <;> simp [is_tiles_of, is_detail_of, hne]
      exact merge2_no_later _ _ hm (entry_trace_no_later e) hufree
    · have hefree : pq_free (is_tiles_of k) (is_detail_of k)
          (entry_trace e) := by
        intro x hx
        rcases List.mem_cons.mp hx with rfl | hx2
        · constructor <;> simp [is_tiles_of, is_detail_of, hk]
        · obtain ⟨j, hj, rfl⟩ :=
            List.mem_map.mp (by simpa [entry_trace] using hx2)
          constructor <;> simp [is_tiles_of, is_detail_of, hk]
      have hut : no_later (is_tiles_of k) (is_detail_of k) u = true :=
        ih u hu hnd.2
      exact merge2_no_later _ _ (merge2_symm hm) hut hefree

/-- C8 counterexample: the program model admits a trace in which entry 0's
Stage-3 detail fetch runs BEFORE entry 1's Stage-2 tile scrape — detail
fetches are performed inside each `scrape_entry` task, concurrently with
sibling entries' tile scraping, not as a separate stage dispatched after
all of Stage 2 completes. -/
theorem c8_counterexample :
    entrypoint_trace [0] [⟨0, [5]⟩, ⟨1, [6]⟩]
      [Ev.s1 0, Ev.tiles 0, Ev.detail 0 5, Ev.tiles 1, Ev.detail 1 6] ∧
    no_later is_tiles is_detail
      [Ev.s1 0, Ev.tiles 0, Ev.detail 0 5, Ev.tiles 1, Ev.detail 1 6]
      = false := by
  constructor
  · refine ⟨[Ev.s1 0],
      [Ev.tiles 0, Ev.detail 0 5, Ev.tiles 1, Ev.detail 1 6],
      ⟨[], rfl, Merge2.left Merge2.nil⟩, ?_, rfl⟩
    refine ⟨entry_trace ⟨1, [6]⟩, ⟨[], rfl, merge2_nil_right _⟩, ?_⟩
    exact Merge2.left (Merge2.left (Merge2.right (Merge2.right Merge2.nil)))
  · decide

/-- C8 amended: stage boundaries up to Stage 2 are join points — in every
trace of the run no Stage-1 subcategory event occurs after any Stage-2/3
event, so no tile task starts before every Stage-1 task has completed —
and within each entry's task the tile scrape precedes that entry's detail
fetches; but Stage-3 detail fetches are NOT dispatched as a separate stage
after Stage 2: they run inside the per-entry tasks, unordered with respect
to sibling entries' tile scrapes (see the counterexample). -/
theorem c8_stage_ordering (subs : List Nat) (entries : List EntrySpec)
    (t : List Ev) (h : entrypoint_trace subs entries t)
    (hids : (entries.map EntrySpec.id).Nodup) :
    no_later is_s1 is_stage23 t = true ∧
    ∀ k, no_later (is_tiles_of k) (is_detail_of k) t = true := by
  obtain ⟨t1, t2, h1, h2, rfl⟩ := h
  have ht1 : ∀ e ∈ t1, is_s1 e = true := by
    intro e he
    obtain ⟨l, hl, hel⟩ := interleave_mem h1 e he
    obtain ⟨i, hi, rfl⟩ := List.mem_map.mp hl
    rcases List.mem_cons.mp hel with rfl | hel
    · rfl
    · cases hel
  have ht2 : ∀ e ∈ t2, is_s1 e = false ∧ is_stage23 e = true := by
    intro e he
    obtain ⟨l, hl, hel⟩ := interleave_mem h2 e he
    obtain ⟨en, hen, rfl⟩ := List.mem_map.mp hl
    rcases List.mem_cons.mp hel with rfl | hel
    · exact ⟨rfl, rfl⟩
    · obtain ⟨j, hj, rfl⟩ :=
        List.mem_map.mp (by simpa [entry_trace] using hel)
      exact ⟨rfl, rfl⟩
  constructor
  · apply no_later_append
    · intro e he
      have := ht1 e he
      cases e <;> simp_all [is_s1, is_stage23, is_tiles, is_detail]
    · exact fun e he => (ht2 e he).1
  · intro k
    apply no_later_append_free
    · intro e he
      have := ht1 e he
      cases e <;> simp_all [is_s1, is_detail_of]
    · exact interleave_entry_order k entries t2 h2 hids

/-- Witness for `c8_stage_ordering` at a concrete one-subcategory,
one-entry run. -/
theorem c8_stage_ordering_witness :
    no_later is_s1 is_stage23 [Ev.s1 0, Ev.tiles 0, Ev.detail 0 5]
      = true ∧
    ∀ k, no_later (is_tiles_of k) (is_detail_of k)
      [Ev.s1 0, Ev.tiles 0, Ev.detail 0 5] = true :=
  c8_stage_ordering [0] [⟨0, [5]⟩] [Ev.s1 0, Ev.tiles 0, Ev.detail 0 5]
    ⟨[Ev.s1 0], [Ev.tiles 0, Ev.detail 0 5],
      ⟨[], rfl, Merge2.left Merge2.nil⟩,
      ⟨[], rfl, merge2_nil_right _⟩, rfl⟩
    (by decide)

end Medline
